import Mathlib

/-!
Verification of the html-lint rule engine.

This file embeds the Go package `html_lint` (file `html_lint.go`) into Lean:
the document-node model from `golang.org/x/net/html` as used by the linter,
the predicate library (`hasAttribute`, `isElement`, `hasParent`, `hasChild`),
the rule battery (`Lint*` functions), the tree walker (`Lint`), the nesting
validator (`LintNesting`), and the diagnostic sink (`Report`).

A node's children are a sibling chain (`FirstChild`/`NextSibling` in Go),
modelled as the mutual inductive `NodeList`. Parent links are supplied to
the rules as an ancestor list (nearest first) during the walk.

A diagnostic is modelled as the list of string objects passed to
`Report.Println` (the pathname followed by the message parts; a printed
string slice is flattened into its elements).

Go's `time.Parse` with the fixed layout `"_2 January 2006"` is embedded by
`goTimeParseOK`, following the Go standard library's parsing of that layout
chunk by chunk (`_2` day, literal space, long month name, literal space,
4-digit year, then the day-of-month range validation).

Numbers are `Nat` (all parsed quantities here are non-negative and small);
strings are Lean `String`s compared character-wise, which agrees with Go's
byte-wise comparison on the ASCII data these rules examine.
-/

/-- One diagnostic: the objects printed by one `Report.Println` call. -/
abbrev Diag := List String

/-- An HTML attribute, as in `golang.org/x/net/html`: a key and a value. -/
structure Attribute where
  key : String
  val : String
deriving DecidableEq, Repr

/-- The node types of `golang.org/x/net/html` that the linter distinguishes. -/
inductive NType where
  | errorNode
  | textNode
  | documentNode
  | elementNode
  | commentNode
  | doctypeNode
deriving DecidableEq, Repr

mutual
/-- A document node: type, data (tag name for elements, text for text
nodes), attributes, and the sibling chain of children. -/
inductive Node where
  | mk : NType → String → List Attribute → NodeList → Node

/-- A sibling chain of nodes (`FirstChild` plus the `NextSibling` links);
`nil` is Go's terminating null reference. -/
inductive NodeList where
  | nil : NodeList
  | cons : Node → NodeList → NodeList
end

def Node.type : Node → NType
  | .mk t _ _ _ => t

def Node.data : Node → String
  | .mk _ d _ _ => d

def Node.attr : Node → List Attribute
  | .mk _ _ a _ => a

def Node.children : Node → NodeList
  | .mk _ _ _ c => c

/-- Go's `node.FirstChild` (null when the chain is empty). -/
def NodeList.firstChild : NodeList → Option Node
  | .nil => none
  | .cons c _ => some c

def NodeList.length : NodeList → Nat
  | .nil => 0
  | .cons _ cs => cs.length + 1

/-- The value test inside Go's `hasAttribute`: for the wildcard `"*"` the
value must be non-empty, otherwise it must match exactly. -/
def attrValTest (value : String) (a : Attribute) : Bool :=
  if value == "*" then a.val != "" else a.val == value

/-- Go `hasAttribute(as, key, value)`: scan the attribute list in order; the
first attribute whose key matches decides the result. -/
def hasAttribute : List Attribute → String → String → Bool
  | [], _, _ => false
  | a :: as, key, value =>
    if a.key == key then attrValTest value a
    else hasAttribute as key value

/-- Go `isElement(node, tag)`. -/
def isElement (node : Node) (tag : String) : Bool :=
  node.type == NType.elementNode && node.data == tag

/-- Go `hasParent(node, tag)`: walk the parent chain looking for an element
with the given tag. The parent chain is supplied as the list of ancestors,
nearest first. -/
def hasParent (ancestors : List Node) (tag : String) : Bool :=
  ancestors.any fun p => p.type == NType.elementNode && p.data == tag

mutual
/-- Go `hasChild(node, tag)` given the loop start (`node.FirstChild` and its
siblings, i.e. `node`'s child chain). For each child `c` in the chain: test
`c`, then recurse with `c.FirstChild` as the new node. -/
def hasChildList : NodeList → String → Bool
  | .nil, _ => false
  | .cons (Node.mk t d a cs2) cs, tag =>
    isElement (Node.mk t d a cs2) tag || hasChildVia cs2 tag || hasChildList cs tag

/-- Go `hasChild(node, tag)` where `node` is the (possibly null) first
element of the given chain: null yields false, otherwise scan that node's
children. This is the code's actual recursion (`hasChild(c.FirstChild, tag)`),
which descends only through the first child. -/
def hasChildVia : NodeList → String → Bool
  | .nil, _ => false
  | .cons (Node.mk _ _ _ gcs) _, tag => hasChildList gcs tag
end

/-- Go `hasChild(node, tag)` for a non-nil node. -/
def hasChildN (node : Node) (tag : String) : Bool :=
  hasChildList node.children tag

/-! ### Go `time.Parse` with the fixed layout `"_2 January 2006"`

The layout decomposes into the chunks `_2` (space-padded day), a literal
space, `January` (long month name), a literal space, and `2006` (4-digit
year). After the layout is consumed the value must be exhausted, and the
day must lie in `1 ..= daysIn(month, year)`. -/

/-- The Go constant `timeFormat`. -/
def timeFormat : String := "_2 January 2006"

def isDigitChar (c : Char) : Bool :=
  decide (48 ≤ c.toNat) && decide (c.toNat ≤ 57)

def digitVal (c : Char) : Nat := c.toNat - 48

/-- Go `getnum(value, fixed=false)`: a one- or two-digit number. -/
def getnum2 : List Char → Option (Nat × List Char)
  | [] => none
  | c :: rest =>
    if isDigitChar c then
      match rest with
      | c2 :: rest2 =>
        if isDigitChar c2 then some (digitVal c * 10 + digitVal c2, rest2)
        else some (digitVal c, rest)
      | [] => some (digitVal c, [])
    else none

/-- Go `skip(value, " ")`: a literal space in the layout demands that the
value not start with a non-space character, then consumes every leading
space (an exhausted value is accepted here and fails at the next chunk). -/
def skipSpace : List Char → Option (List Char)
  | [] => some []
  | c :: rest =>
    if c = ' ' then some ((c :: rest).dropWhile fun x => x = ' ')
    else none

/-- Go `match(s1, s2)` on a single character pair: equal, or equal after
ASCII lowercasing via `c | 0x20` with the result a lowercase letter. -/
def goCharMatch (c1 c2 : Char) : Bool :=
  c1 == c2 ||
    (c1.toNat ||| 32) == (c2.toNat ||| 32) &&
      decide (97 ≤ (c1.toNat ||| 32)) && decide ((c1.toNat ||| 32) ≤ 122)

def goMatchChars : List Char → List Char → Bool
  | [], [] => true
  | c1 :: r1, c2 :: r2 => goCharMatch c1 c2 && goMatchChars r1 r2
  | _, _ => false

/-- Go `longMonthNames`. -/
def longMonthNames : List (List Char) :=
  ["January".data, "February".data, "March".data, "April".data, "May".data,
   "June".data, "July".data, "August".data, "September".data, "October".data,
   "November".data, "December".data]

/-- Go `lookup(longMonthNames, val)` followed by `month++`: try each name in
order; the first case-insensitive prefix match wins, returning the 1-based
month and the remaining value. -/
def lookupMonthFrom : List (List Char) → Nat → List Char → Option (Nat × List Char)
  | [], _, _ => none
  | name :: names, i, val =>
    if decide (name.length ≤ val.length) && goMatchChars (val.take name.length) name
    then some (i + 1, val.drop name.length)
    else lookupMonthFrom names (i + 1) val

/-- Go's `stdLongYear` parsing: exactly four leading digits. -/
def getnum4 : List Char → Option (Nat × List Char)
  | c0 :: c1 :: c2 :: c3 :: rest =>
    if isDigitChar c0 && isDigitChar c1 && isDigitChar c2 && isDigitChar c3 then
      some (((digitVal c0 * 10 + digitVal c1) * 10 + digitVal c2) * 10 + digitVal c3, rest)
    else none
  | _ => none

/-- Go `isLeap(year)`. -/
def isLeapYear (y : Nat) : Bool :=
  y % 4 == 0 && (y % 100 != 0 || y % 400 == 0)

/-- Go `daysIn(m, year)` for 1-based month `m`. -/
def daysIn (m y : Nat) : Nat :=
  if m == 2 then (if isLeapYear y then 29 else 28)
  else if m == 4 || m == 6 || m == 9 || m == 11 then 30
  else 31

/-- Whether Go's `time.Parse("_2 January 2006", s)` succeeds. -/
def goTimeParseOK (s : String) : Bool :=
  let v0 := s.data
  let v1 := if v0.head? == some ' ' then v0.tail else v0
  match getnum2 v1 with
  | none => false
  | some (day, v2) =>
    match skipSpace v2 with
    | none => false
    | some v3 =>
      match lookupMonthFrom longMonthNames 0 v3 with
      | none => false
      | some (month, v4) =>
        match skipSpace v4 with
        | none => false
        | some v5 =>
          match getnum4 v5 with
          | none => false
          | some (year, v6) =>
            v6.isEmpty && decide (1 ≤ day) && decide (day ≤ daysIn month year)

example : goTimeParseOK "2 January 2006" = true := by decide
example : goTimeParseOK "31 December 1999" = true := by decide
example : goTimeParseOK " 2 january 2006" = true := by decide
example : goTimeParseOK "29 February 2023" = false := by decide
example : goTimeParseOK "29 February 2024" = true := by decide
example : goTimeParseOK "2 Jan 2006" = false := by decide
example : goTimeParseOK "2 January 06" = false := by decide
example : goTimeParseOK "2 January 2006 " = false := by decide
example : goTimeParseOK "" = false := by decide

example : hasAttribute [⟨"a", "1"⟩, ⟨"b", ""⟩] "b" "*" = false := by decide
example : hasAttribute [⟨"a", "1"⟩, ⟨"b", "x"⟩] "b" "*" = true := by decide
example :
    hasChildN
      (Node.mk .elementNode "figure" []
        (.cons (Node.mk .elementNode "figcaption" [] .nil) .nil))
      "figcaption" = true := by decide
example :
    hasChildN
      (Node.mk .elementNode "figure" []
        (.cons
          (Node.mk .elementNode "div" []
            (.cons (Node.mk .elementNode "figcaption" [] .nil) .nil))
          .nil))
      "figcaption" = false := by decide

/-! ### The rule battery (the Go `Lint*` functions)

Each rule is given the ancestor chain where the Go code follows parent
links. Each returns the list of diagnostics it prints for the node, in
print order; the stateful sink is recovered below via `Report`. -/

/-- Go `LintLazyLoading`. -/
def lintLazyLoading (node : Node) (pathname : String) : List Diag :=
  if isElement node "img" || isElement node "iframe" then
    if !hasAttribute node.attr "loading" "lazy" then
      [[pathname, "<img>/<iframe> missing loading=lazy"]]
    else []
  else if isElement node "script" then
    if !hasAttribute node.attr "type" "module" then
      [[pathname, "<script> missing type=module"]]
    else []
  else []

/-- Go `LintWidthAndHeight`. -/
def lintWidthAndHeight (node : Node) (pathname : String) : List Diag :=
  if isElement node "img" then
    (if !hasAttribute node.attr "width" "*" then [[pathname, "<img> missing width"]] else [])
    ++
    (if !hasAttribute node.attr "height" "*" then [[pathname, "<img> missing height"]] else [])
  else []

/-- Go `LintAltText`. -/
def lintAltText (node : Node) (pathname : String) : List Diag :=
  if isElement node "img" && !hasAttribute node.attr "alt" "*" then
    [[pathname, "<img> missing alt"]]
  else []

/-- Go `LintAName`. -/
def lintAName (node : Node) (pathname : String) : List Diag :=
  if isElement node "a" && hasAttribute node.attr "name" "*" then
    [[pathname, "<a> has name; should use id"]]
  else []

/-- Go `LintImgNestedInFigure`. -/
def lintImgNestedInFigure (ancestors : List Node) (node : Node) (pathname : String) :
    List Diag :=
  if isElement node "img" && !hasParent ancestors "figure" then
    [[pathname, "<img> not inside <figure>"]]
  else []

/-- Go `LintTimeFormatting`: look at `node.FirstChild` only. -/
def lintTimeFormatting (node : Node) (pathname : String) : List Diag :=
  if isElement node "time" then
    match node.children.firstChild with
    | none => [[pathname, "<time> needs exactly 1 text child"]]
    | some c =>
      if c.type != NType.textNode then
        [[pathname, "<time> needs exactly 1 text child"]]
      else if goTimeParseOK c.data then []
      else [[pathname, "<time> child", c.data, "does not have correct format", timeFormat]]
  else []

/-- Go `LintFigureHasFigcaption`. -/
def lintFigureHasFigcaption (node : Node) (pathname : String) : List Diag :=
  if isElement node "figure" && !hasChildN node "figcaption" then
    [[pathname, "<figure> missing <figcaption> child"]]
  else []

/-- Go `strings.ContainsAny(s, quote-chars)`: the string holds a straight
apostrophe (code 39) or straight double quote (code 34). -/
def containsQuoteChar (s : String) : Bool :=
  s.data.any fun c => c == Char.ofNat 39 || c == Char.ofNat 34

/-- The attribute loop of Go `LintCurlyQuotes`: one diagnostic per `alt` or
`title` attribute whose value holds a straight quote, in attribute order. -/
def curlyAttrDiags (pathname : String) : List Attribute → List Diag
  | [] => []
  | a :: as =>
    (if (a.key == "alt" || a.key == "title") && containsQuoteChar a.val then
      [[pathname, "<img> alt or title contains non-curly quotes"]]
    else [])
    ++ curlyAttrDiags pathname as

/-- Go `LintCurlyQuotes`. -/
def lintCurlyQuotes (ancestors : List Node) (node : Node) (pathname : String) :
    List Diag :=
  (if node.type == NType.textNode && !hasParent ancestors "pre" &&
      !hasParent ancestors "code" && !hasParent ancestors "script" &&
      !hasParent ancestors "style" then
    if containsQuoteChar node.data then
      [[pathname, "contains non-curly quotes text node", node.data]]
    else []
  else [])
  ++
  (if isElement node "img" then curlyAttrDiags pathname node.attr else [])

/-- The fixed battery applied to one node, in the order Go's `Lint` calls
the rules. -/
def lintNode (ancestors : List Node) (node : Node) (pathname : String) : List Diag :=
  lintLazyLoading node pathname
  ++ lintWidthAndHeight node pathname
  ++ lintAltText node pathname
  ++ lintAName node pathname
  ++ lintImgNestedInFigure ancestors node pathname
  ++ lintTimeFormatting node pathname
  ++ lintFigureHasFigcaption node pathname
  ++ lintCurlyQuotes ancestors node pathname

mutual
/-- Go `Lint`: apply the battery to the node, then recurse into the child
chain, depth-first and pre-order. Returns the diagnostics in print order. -/
def lintWalk (ancestors : List Node) : Node → String → List Diag
  | Node.mk t d a cs, pathname =>
    lintNode ancestors (Node.mk t d a cs) pathname
    ++ lintWalkChildren (Node.mk t d a cs :: ancestors) cs pathname

def lintWalkChildren (ancestors : List Node) : NodeList → String → List Diag
  | .nil, _ => []
  | .cons c cs, pathname =>
    lintWalk ancestors c pathname ++ lintWalkChildren ancestors cs pathname
end

/-! ### The diagnostic sink (Go `Report`) -/

/-- Go `Report`: the diagnostics written to the output stream, in order,
and the running `ErrorCount`. -/
structure Report where
  log : List Diag
  errorCount : Nat
deriving DecidableEq, Repr

/-- Go `Report.Println`: write one diagnostic and add one to the count. -/
def Report.println (r : Report) (objects : Diag) : Report :=
  { log := r.log ++ [objects], errorCount := r.errorCount + 1 }

/-- Print a list of diagnostics in order, one `Println` call each. -/
def Report.printAll (r : Report) (diags : List Diag) : Report :=
  diags.foldl Report.println r

/-- A sink as freshly created by a caller: no output, zero count. -/
def freshReport : Report := { log := [], errorCount := 0 }

/-- Go `Lint` run against a sink. -/
def lintS (r : Report) (root : Node) (pathname : String) : Report :=
  r.printAll (lintWalk [] root pathname)

/-! ### The nesting validator (Go `LintNesting`) -/

/-- One token from Go's `html.NewTokenizer`: a start tag, an end tag, or
any other non-error token (text, comments, self-closing tags, ...). The
stream ends where the tokenizer reports `ErrorToken`. -/
inductive Token where
  | startTag (tag : String)
  | endTag (tag : String)
  | other
deriving DecidableEq, Repr

/-- The outcome of the nesting scan: normal completion with the printed
diagnostics, or a Go runtime panic (out-of-range slice index) after having
printed the given diagnostics. -/
inductive ScanResult where
  | ok (diags : List Diag)
  | panicked (diags : List Diag)
deriving DecidableEq, Repr

/-- Go `stack[len(stack)-1]` for the non-empty stack `s :: ss`. -/
def lastOf (s : String) : List String → String
  | [] => s
  | x :: xs => lastOf x xs

/-- Go `stack[:len(stack)-1]` for the non-empty stack `s :: ss`. -/
def popLast (s : String) : List String → List String
  | [] => []
  | x :: xs => s :: popLast x xs

/-- The loop of Go `LintNesting`. The stack grows at the end (`append`),
`previous` is its last element. On an end tag with an empty stack the code
prints the underflow diagnostic and then evaluates `stack[len(stack)-1]`,
i.e. `stack[-1]`: a runtime panic. The terminal `Unclosed tags` diagnostic
prints the remaining stack elements in order. -/
def lintNestingScan (pathname : String) :
    List Token → List String → List Diag → ScanResult
  | [], stack, diags =>
    if stack.isEmpty then .ok diags
    else .ok (diags ++ [[pathname, "Unclosed tags"] ++ stack])
  | .startTag tag :: ts, stack, diags =>
    lintNestingScan pathname ts (stack ++ [tag]) diags
  | .endTag tag :: ts, stack, diags =>
    match stack with
    | [] => .panicked (diags ++ [[pathname, "tag stack underflow"]])
    | s :: ss =>
      let previous := lastOf s ss
      let diags2 :=
        if tag == previous then diags
        else diags ++ [[pathname, "Unmatched pair", tag, previous]]
      lintNestingScan pathname ts (popLast s ss) diags2
  | .other :: ts, stack, diags =>
    lintNestingScan pathname ts stack diags

/-- Go `LintNesting` on a token stream. -/
def lintNesting (pathname : String) (tokens : List Token) : ScanResult :=
  lintNestingScan pathname tokens [] []

/-- The diagnostics actually printed by a scan, whether or not it panicked. -/
def scanDiags : ScanResult → List Diag
  | .ok ds => ds
  | .panicked ds => ds

example :
    lintNesting "f" [.startTag "a", .startTag "b", .endTag "b", .endTag "a"] =
      .ok [] := by decide
example :
    lintNesting "f" [.endTag "div"] =
      .panicked [["f", "tag stack underflow"]] := by decide
example :
    lintNesting "f" [.startTag "a", .startTag "b"] =
      .ok [["f", "Unclosed tags", "a", "b"]] := by decide
example :
    lintNesting "f" [.startTag "a", .endTag "b"] =
      .ok [["f", "Unmatched pair", "b", "a"]] := by decide

/-! ### Helper lemmas -/

theorem lastOf_concat (s : String) (ss : List String) (tag : String) :
    lastOf s (ss ++ [tag]) = tag := by
  induction ss generalizing s with
  | nil => rfl
  | cons x xs ih => simpa [lastOf] using ih x

theorem popLast_concat (s : String) (ss : List String) (tag : String) :
    popLast s (ss ++ [tag]) = s :: ss := by
  induction ss generalizing s with
  | nil => rfl
  | cons x xs ih => simpa [popLast] using ih x

/-- Closing the tag on top of the stack pops it and prints nothing. -/
theorem scan_end_pop (pathname tag : String) (ts : List Token)
    (stack : List String) (diags : List Diag) :
    lintNestingScan pathname (Token.endTag tag :: ts) (stack ++ [tag]) diags =
      lintNestingScan pathname ts stack diags := by
  cases stack with
  | nil => simp [lintNestingScan, lastOf, popLast]
  | cons x xs => simp [lintNestingScan, lastOf_concat, popLast_concat]

theorem printAll_log (r : Report) (diags : List Diag) :
    (r.printAll diags).log = r.log ++ diags := by
  induction diags generalizing r with
  | nil => simp [Report.printAll]
  | cons d ds ih => simp [Report.printAll, Report.println] at ih ⊢; simp [ih]

theorem printAll_count (r : Report) (diags : List Diag) :
    (r.printAll diags).errorCount = r.errorCount + diags.length := by
  induction diags generalizing r with
  | nil => simp [Report.printAll]
  | cons d ds ih =>
    simp only [Report.printAll, List.foldl_cons] at ih ⊢
    rw [ih]
    simp [Report.println]
    omega

theorem hasAttribute_false_of_forall (as : List Attribute) (key value : String)
    (h : ∀ a ∈ as, a.key = key → attrValTest value a = false) :
    hasAttribute as key value = false := by
  induction as with
  | nil => rfl
  | cons a as ih =>
    by_cases hk : a.key = key
    · simp [hasAttribute, hk, h a (List.mem_cons_self a as) hk]
    · simp [hasAttribute, hk]
      exact ih fun b hb => h b (List.mem_cons_of_mem a hb)

theorem hasAttribute_iff_of_nodup (as : List Attribute) (key value : String)
    (h : (as.map Attribute.key).Nodup) :
    hasAttribute as key value = true ↔
      ∃ a ∈ as, a.key = key ∧ attrValTest value a = true := by
  induction as with
  | nil => simp [hasAttribute]
  | cons a as ih =>
    rw [List.map_cons, List.nodup_cons] at h
    obtain ⟨hnotin, hnd⟩ := h
    by_cases hk : a.key = key
    · simp only [hasAttribute, hk, beq_self_eq_true, if_true]
      constructor
      · intro ht
        exact ⟨a, List.mem_cons_self a as, hk, ht⟩
      · rintro ⟨b, hb, hbk, hbt⟩
        rcases List.mem_cons.mp hb with hba | hbin
        · subst hba; exact hbt
        · have hmem : b.key ∈ as.map Attribute.key :=
            List.mem_map_of_mem Attribute.key hbin
          rw [hbk, ← hk] at hmem
          exact absurd hmem hnotin
    · simp only [hasAttribute, beq_iff_eq, hk, if_false]
      rw [ih hnd]
      constructor
      · rintro ⟨b, hb, hbk, hbt⟩
        exact ⟨b, List.mem_cons_of_mem a hb, hbk, hbt⟩
      · rintro ⟨b, hb, hbk, hbt⟩
        rcases List.mem_cons.mp hb with hba | hbin
        · exact absurd (hba ▸ hbk) hk
        · exact ⟨b, hbin, hbk, hbt⟩

/-! ### Claims about the predicate library and per-node rules -/

/-- C10: `hasAttribute` is determined solely by the first attribute whose
key equals the given key — the value test of that first occurrence is the
result, regardless of any later attribute with the same key. -/
theorem claim_C10 (pre post : List Attribute) (a : Attribute) (key value : String)
    (hpre : ∀ b ∈ pre, b.key ≠ key) (ha : a.key = key) :
    hasAttribute (pre ++ a :: post) key value = attrValTest value a := by
  induction pre with
  | nil => simp [hasAttribute, ha]
  | cons b bs ih =>
    have hb : b.key ≠ key := hpre b (List.mem_cons_self b bs)
    simp only [List.cons_append, hasAttribute, beq_iff_eq, hb, if_false]
    exact ih fun x hx => hpre x (List.mem_cons_of_mem b hx)

/-- Witness for C10: with `loading=eager` before `loading=lazy`, the lookup
for `loading=lazy` fails even though a later attribute would satisfy it. -/
theorem claim_C10_witness :
    (∀ b ∈ ([] : List Attribute), b.key ≠ "loading") ∧
    hasAttribute [⟨"loading", "eager"⟩, ⟨"loading", "lazy"⟩] "loading" "lazy" = false := by
  refine ⟨by simp, ?_⟩
  have h := claim_C10 [] [⟨"loading", "lazy"⟩] ⟨"loading", "eager"⟩ "loading" "lazy"
    (by simp) rfl
  exact h.trans (by decide)

/-- C4: on an `img` or `iframe` element whose attribute keys are unique (the
data-model invariant), the lazy-loading rule prints exactly one diagnostic
iff no attribute has key `loading` with value exactly `lazy`, and prints
nothing iff such an attribute exists. -/
theorem claim_C4 (node : Node) (pathname : String)
    (helem : isElement node "img" = true ∨ isElement node "iframe" = true)
    (huniq : (node.attr.map Attribute.key).Nodup) :
    ((lintLazyLoading node pathname).length = 1 ↔
      ¬ ∃ a ∈ node.attr, a.key = "loading" ∧ a.val = "lazy") ∧
    (lintLazyLoading node pathname = [] ↔
      ∃ a ∈ node.attr, a.key = "loading" ∧ a.val = "lazy") := by
  have hcond : (isElement node "img" || isElement node "iframe") = true := by
    rcases helem with h | h <;> simp [h]
  have hexists : hasAttribute node.attr "loading" "lazy" = true ↔
      ∃ a ∈ node.attr, a.key = "loading" ∧ a.val = "lazy" := by
    rw [hasAttribute_iff_of_nodup node.attr "loading" "lazy" huniq]
    constructor
    · rintro ⟨a, ha, hk, hv⟩
      refine ⟨a, ha, hk, ?_⟩
      simpa [attrValTest] using hv
    · rintro ⟨a, ha, hk, hv⟩
      refine ⟨a, ha, hk, ?_⟩
      simpa [attrValTest] using hv
  unfold lintLazyLoading
  rw [if_pos hcond]
  cases h : hasAttribute node.attr "loading" "lazy" with
  | true => simp [hexists.mp h]
  | false =>
    have : ¬ ∃ a ∈ node.attr, a.key = "loading" ∧ a.val = "lazy" := by
      intro hx
      rw [hexists.mpr hx] at h
      cases h
    simp [this]

def imgEagerNode : Node :=
  Node.mk .elementNode "img" [⟨"loading", "eager"⟩] .nil

/-- Witness for C4: an `img` with `loading=eager` gets the diagnostic. -/
theorem claim_C4_witness :
    isElement imgEagerNode "img" = true ∧
    ((lintLazyLoading imgEagerNode "c4.html").length = 1 ↔
      ¬ ∃ a ∈ imgEagerNode.attr, a.key = "loading" ∧ a.val = "lazy") := by
  refine ⟨by decide, ?_⟩
  exact (claim_C4 imgEagerNode "c4.html" (Or.inl (by decide)) (by decide)).1

/-- C5: an `img` element with no non-empty `width` attribute and no
non-empty `height` attribute gets exactly two diagnostics from the
width/height rule, one for each missing attribute, in that order. -/
theorem claim_C5 (node : Node) (pathname : String)
    (helem : isElement node "img" = true)
    (hw : ¬ ∃ a ∈ node.attr, a.key = "width" ∧ a.val ≠ "")
    (hh : ¬ ∃ a ∈ node.attr, a.key = "height" ∧ a.val ≠ "") :
    lintWidthAndHeight node pathname =
      [[pathname, "<img> missing width"], [pathname, "<img> missing height"]] ∧
    (lintWidthAndHeight node pathname).length = 2 := by
  push_neg at hw hh
  have hwf : hasAttribute node.attr "width" "*" = false := by
    refine hasAttribute_false_of_forall node.attr "width" "*" fun a ha hk => ?_
    simpa [attrValTest] using hw a ha hk
  have hhf : hasAttribute node.attr "height" "*" = false := by
    refine hasAttribute_false_of_forall node.attr "height" "*" fun a ha hk => ?_
    simpa [attrValTest] using hh a ha hk
  unfold lintWidthAndHeight
  rw [if_pos helem, hwf, hhf]
  exact ⟨rfl, rfl⟩

def imgBareNode : Node :=
  Node.mk .elementNode "img" [⟨"src", "g"⟩, ⟨"width", ""⟩] .nil

/-- Witness for C5: an `img` with only `src` and an empty `width` gets both
the missing-width and the missing-height diagnostics. -/
theorem claim_C5_witness :
    isElement imgBareNode "img" = true ∧
    lintWidthAndHeight imgBareNode "c5.html" =
      [["c5.html", "<img> missing width"], ["c5.html", "<img> missing height"]] := by
  refine ⟨by decide, ?_⟩
  exact (claim_C5 imgBareNode "c5.html" (by decide) (by decide) (by decide)).1

/-! ### C2: the time-formatting rule -/

/-- What the code actually tests: the node's first child exists, is a text
node, and its content parses under the fixed format. Later siblings are
never inspected. -/
def timeFirstChildOK (node : Node) : Bool :=
  match node.children.firstChild with
  | none => false
  | some c => c.type == NType.textNode && goTimeParseOK c.data

/-- The claim's condition, following the spec's words: the node has exactly
one child, that child is a text node, and its content parses under the
fixed format. -/
def specTimeExactlyOneTextChild (node : Node) : Bool :=
  match node.children with
  | .cons c .nil => c.type == NType.textNode && goTimeParseOK c.data
  | _ => false

def timeTwoChildren : Node :=
  Node.mk .elementNode "time" []
    (.cons (Node.mk .textNode "2 January 2006" [] .nil)
      (.cons (Node.mk .elementNode "span" [] .nil) .nil))

/-- Counterexample to C2 as stated: a `time` element with a parseable text
first child followed by a second child does not have exactly one text-node
child, yet the rule prints no diagnostic. -/
theorem claim_C2_counterexample :
    ¬ (((lintTimeFormatting timeTwoChildren "t2.html").length = 1) ↔
        specTimeExactlyOneTextChild timeTwoChildren = false) := by decide

/-- C2 as amended: on a `time` element the rule prints exactly one
diagnostic iff the first child is absent, is not a text node, or does not
parse under the fixed format; it prints nothing iff the first child is a
parseable text node. Children after the first are never inspected. -/
theorem claim_C2 (node : Node) (pathname : String)
    (h : isElement node "time" = true) :
    ((lintTimeFormatting node pathname).length = 1 ↔ timeFirstChildOK node = false) ∧
    (lintTimeFormatting node pathname = [] ↔ timeFirstChildOK node = true) := by
  unfold lintTimeFormatting timeFirstChildOK
  rw [if_pos h]
  cases hc : node.children.firstChild with
  | none => simp
  | some c =>
    by_cases htype : c.type = NType.textNode
    · by_cases hparse : goTimeParseOK c.data = true
      · simp [htype, hparse]
      · simp [htype, hparse]
    · simp [htype]

def timeGoodNode : Node :=
  Node.mk .elementNode "time" []
    (.cons (Node.mk .textNode "2 January 2006" [] .nil) .nil)

/-- Witness for C2 (amended): a `time` element whose sole child is the text
`2 January 2006` yields zero diagnostics. -/
theorem claim_C2_witness :
    isElement timeGoodNode "time" = true ∧
    lintTimeFormatting timeGoodNode "t.html" = [] := by
  refine ⟨by decide, ?_⟩
  exact ((claim_C2 timeGoodNode "t.html" (by decide)).2).mpr (by decide)

/-! ### C1 and C3: the nesting validator -/

/-- C1: the code slip in `LintNesting`. On an end-tag token with an empty
stack the scan prints the `tag stack underflow` diagnostic and then
evaluates `stack[len(stack)-1]` with `len(stack) = 0`, a runtime panic: the
scan aborts instead of continuing to completion. -/
theorem claim_C1 :
    lintNesting "c1.html" [Token.endTag "div"] =
      ScanResult.panicked [["c1.html", "tag stack underflow"]] := by decide

/-- Token streams whose start/end tags are perfectly balanced: matched
well-nested pairs, with non-tag tokens allowed anywhere. -/
inductive BalancedToks : List Token → Prop where
  | nil : BalancedToks []
  | ignoreTok : BalancedToks [Token.other]
  | wrap (tag : String) {ts : List Token} :
      BalancedToks ts → BalancedToks (Token.startTag tag :: (ts ++ [Token.endTag tag]))
  | append {ts1 ts2 : List Token} :
      BalancedToks ts1 → BalancedToks ts2 → BalancedToks (ts1 ++ ts2)

/-- Scanning a balanced prefix changes neither the stack nor the printed
diagnostics. -/
theorem scan_balanced_prefix (pathname : String) {b : List Token}
    (hb : BalancedToks b) :
    ∀ (ts : List Token) (stack : List String) (diags : List Diag),
      lintNestingScan pathname (b ++ ts) stack diags =
        lintNestingScan pathname ts stack diags := by
  induction hb with
  | nil => intro ts stack diags; rfl
  | ignoreTok => intro ts stack diags; rfl
  | wrap tag hb ih =>
    rename_i b'
    intro ts stack diags
    have h1 : (Token.startTag tag :: (b' ++ [Token.endTag tag])) ++ ts
        = Token.startTag tag :: (b' ++ ([Token.endTag tag] ++ ts)) := by simp
    rw [h1]
    show lintNestingScan pathname (b' ++ ([Token.endTag tag] ++ ts))
      (stack ++ [tag]) diags = _
    rw [ih]
    exact scan_end_pop pathname tag ts stack diags
  | append hb1 hb2 ih1 ih2 =>
    intro ts stack diags
    rw [List.append_assoc, ih1, ih2]

/-- C3: on a perfectly balanced stream the scan completes with zero
diagnostics; on a stream whose only flaw is one unmatched end tag the scan
prints exactly one `tag stack underflow` diagnostic but then panics instead
of completing; on a stream ending with still-open tags it prints exactly
one `Unclosed tags` diagnostic naming all of them in order. -/
theorem claim_C3 :
    (∀ (ts : List Token), BalancedToks ts →
      lintNesting "c3.html" ts = ScanResult.ok []) ∧
    (lintNesting "c3.html" [Token.startTag "a", Token.endTag "a", Token.endTag "b"] =
      ScanResult.panicked [["c3.html", "tag stack underflow"]]) ∧
    (lintNesting "c3.html" [Token.startTag "p", Token.startTag "em", Token.other] =
      ScanResult.ok [["c3.html", "Unclosed tags", "p", "em"]]) := by
  refine ⟨?_, by decide, by decide⟩
  intro ts hts
  have h := scan_balanced_prefix "c3.html" hts [] [] []
  unfold lintNesting
  rw [← List.append_nil ts]
  exact h

/-- Witness for C3: the balanced stream for one element is scanned with
zero diagnostics. -/
theorem claim_C3_witness :
    BalancedToks [Token.startTag "a", Token.endTag "a"] ∧
    lintNesting "c3.html" [Token.startTag "a", Token.endTag "a"] =
      ScanResult.ok [] := by
  have hb : BalancedToks [Token.startTag "a", Token.endTag "a"] :=
    BalancedToks.wrap "a" BalancedToks.nil
  exact ⟨hb, claim_C3.1 _ hb⟩

/-! ### C6: the concrete anchor-name scenario -/

def charsStartWith : List Char → List Char → Bool
  | [], _ => true
  | _ :: _, [] => false
  | a :: as, b :: bs => a == b && charsStartWith as bs

def charsOccur (needle : List Char) : List Char → Bool
  | [] => needle.isEmpty
  | c :: rest => charsStartWith needle (c :: rest) || charsOccur needle rest

/-- The first string occurs contiguously inside the second. -/
def hasSubstring (needle hay : String) : Bool :=
  charsOccur needle.data hay.data

/-- The tree `golang.org/x/net/html` parses from the source
`<a name="x"></a>`: the parser synthesizes the `html`, `head` and `body`
elements and places the anchor inside `body`. -/
def aNameDoc : Node :=
  Node.mk .documentNode "" []
    (.cons
      (Node.mk .elementNode "html" []
        (.cons (Node.mk .elementNode "head" [] .nil)
          (.cons
            (Node.mk .elementNode "body" []
              (.cons (Node.mk .elementNode "a" [⟨"name", "x"⟩] .nil) .nil))
            .nil)))
      .nil)

/-- C6: the full walk over the parsed tree of `<a name="x"></a>` prints
exactly one diagnostic, its message contains `has name; should use id`, and
a fresh sink ends with count 1. -/
theorem claim_C6 :
    lintWalk [] aNameDoc "a.html" = [["a.html", "<a> has name; should use id"]] ∧
    hasSubstring "has name; should use id" "<a> has name; should use id" = true ∧
    (lintS freshReport aNameDoc "a.html").errorCount = 1 := by
  refine ⟨by decide, by decide, by decide⟩

/-! ### C7: trees with no violating node -/

mutual
/-- Every node of the tree (walked with the given ancestor chain) passes
every rule in the battery with no diagnostic. -/
def allClean (ancestors : List Node) : Node → String → Bool
  | Node.mk t d a cs, pathname =>
    (lintNode ancestors (Node.mk t d a cs) pathname).isEmpty &&
    allCleanChildren (Node.mk t d a cs :: ancestors) cs pathname

def allCleanChildren (ancestors : List Node) : NodeList → String → Bool
  | .nil, _ => true
  | .cons c cs, pathname =>
    allClean ancestors c pathname && allCleanChildren ancestors cs pathname
end

mutual
theorem lintWalk_of_allClean (ancestors : List Node) (n : Node) (pathname : String)
    (h : allClean ancestors n pathname = true) :
    lintWalk ancestors n pathname = [] := by
  match n with
  | Node.mk t d a cs =>
    simp only [allClean, Bool.and_eq_true, List.isEmpty_iff] at h
    rw [lintWalk, h.1, lintWalkChildren_of_allClean _ cs pathname h.2]
    rfl

theorem lintWalkChildren_of_allClean (ancestors : List Node) (ns : NodeList)
    (pathname : String) (h : allCleanChildren ancestors ns pathname = true) :
    lintWalkChildren ancestors ns pathname = [] := by
  match ns with
  | .nil => rfl
  | .cons c cs =>
    simp only [allCleanChildren, Bool.and_eq_true] at h
    rw [lintWalkChildren, lintWalk_of_allClean _ c pathname h.1,
      lintWalkChildren_of_allClean _ cs pathname h.2]
    rfl
end

/-- C7: when no node of the tree violates any rule in the battery, the full
walk prints nothing and leaves the sink's output and count unchanged. -/
theorem claim_C7 (root : Node) (pathname : String) (r : Report)
    (h : allClean [] root pathname = true) :
    lintWalk [] root pathname = [] ∧
    (lintS r root pathname).log = r.log ∧
    (lintS r root pathname).errorCount = r.errorCount := by
  have hw := lintWalk_of_allClean [] root pathname h
  refine ⟨hw, ?_, ?_⟩
  · rw [lintS, hw]; rfl
  · rw [lintS, hw]; rfl

/-- Witness for C7: a lone quote-free text node violates nothing and the
walk prints nothing. -/
theorem claim_C7_witness :
    allClean [] (Node.mk .textNode "hello" [] .nil) "c7.html" = true ∧
    lintWalk [] (Node.mk .textNode "hello" [] .nil) "c7.html" = [] := by
  refine ⟨by decide, ?_⟩
  exact (claim_C7 (Node.mk .textNode "hello" [] .nil) "c7.html" freshReport
    (by decide)).1

/-! ### C8: the sink's count tracks the recorded diagnostics -/

/-- One core operation run against the shared sink: a full tree walk or a
nesting scan. -/
inductive Check where
  | tree (root : Node) (pathname : String)
  | nesting (tokens : List Token) (pathname : String)

/-- The diagnostics one operation prints to the sink, in print order. -/
def checkDiags : Check → List Diag
  | .tree root pathname => lintWalk [] root pathname
  | .nesting tokens pathname => scanDiags (lintNesting pathname tokens)

/-- Run a sequence of operations against one cumulative sink. -/
def runChecks (r : Report) : List Check → Report
  | [] => r
  | c :: cs => runChecks (r.printAll (checkDiags c)) cs

/-- C8: each `Println` appends exactly one diagnostic and adds exactly one
to the count, and any sequence of rule and nesting checks only ever appends
to the same sink, whose final count is the initial count plus the number of
diagnostics recorded — never reset or decreased. -/
theorem claim_C8 :
    (∀ (r : Report) (d : Diag),
      (r.println d).log = r.log ++ [d] ∧
      (r.println d).errorCount = r.errorCount + 1) ∧
    (∀ (r : Report) (checks : List Check), ∃ ds : List Diag,
      (runChecks r checks).log = r.log ++ ds ∧
      (runChecks r checks).errorCount = r.errorCount + ds.length) := by
  constructor
  · intro r d
    exact ⟨rfl, rfl⟩
  · intro r checks
    induction checks generalizing r with
    | nil => exact ⟨[], by simp [runChecks], by simp [runChecks]⟩
    | cons c cs ih =>
      obtain ⟨ds, h1, h2⟩ := ih (r.printAll (checkDiags c))
      refine ⟨checkDiags c ++ ds, ?_, ?_⟩
      · rw [runChecks, h1, printAll_log, List.append_assoc]
      · rw [runChecks, h2, printAll_count, List.length_append]
        omega

/-! ### C9: the walk is a pure function of the tree -/

/-- C9: two runs of the walk over the same unmodified tree against fresh
sinks print identical diagnostic sequences with identical counts; indeed
the printed sequence is exactly the pure function `lintWalk` of the tree. -/
theorem claim_C9 (root : Node) (pathname : String) (r1 r2 : Report)
    (h1 : r1 = freshReport) (h2 : r2 = freshReport) :
    (lintS r1 root pathname).log = (lintS r2 root pathname).log ∧
    (lintS r1 root pathname).errorCount = (lintS r2 root pathname).errorCount ∧
    (lintS r1 root pathname).log = lintWalk [] root pathname := by
  subst h1
  subst h2
  refine ⟨rfl, rfl, ?_⟩
  rw [lintS, printAll_log]
  rfl

/-- Witness for C9 at a concrete one-node tree. -/
theorem claim_C9_witness :
    (lintS freshReport (Node.mk .textNode "hi" [] .nil) "c9.html").log =
      (lintS freshReport (Node.mk .textNode "hi" [] .nil) "c9.html").log ∧
    (lintS freshReport (Node.mk .textNode "hi" [] .nil) "c9.html").errorCount =
      (lintS freshReport (Node.mk .textNode "hi" [] .nil) "c9.html").errorCount ∧
    (lintS freshReport (Node.mk .textNode "hi" [] .nil) "c9.html").log =
      lintWalk [] (Node.mk .textNode "hi" [] .nil) "c9.html" :=
  claim_C9 (Node.mk .textNode "hi" [] .nil) "c9.html" freshReport freshReport rfl rfl
